import Mathlib

/-!
Shallow embedding of the frequency-coverage engine of the
`extract-sight-words` repository (source files `extract_sight_words.py`
and `russian_analyzer.py`).

Conventions used throughout:

* Python `Counter` objects and dicts are modelled as insertion-ordered
  association lists `List (String × Nat)`; this is faithful because
  Python dicts iterate in insertion order and all dicts reaching the
  functions below have unique keys (they come from `Counter`).
* Python `float` arithmetic is modelled with exact rationals `ℚ`.  The
  percentages involved are ratios of machine integers scaled by `100`.
* Python code that can raise `ZeroDivisionError` is modelled with
  `Option`: `none` is the raising run, `some` the normal return value.
* Python's `sorted(..., key=lambda x: x[1], reverse=True)` and
  `Counter.most_common()` are stable descending sorts on the count.  A
  stable sort's output is uniquely determined by its input order, so
  they are modelled by the stable insertion sort `sortDesc` below.
* `str.lower`, `str.isalpha`, `\w` are Unicode-aware in Python; they
  are modelled here by Lean's ASCII `Char.toLower`, `Char.isAlpha`,
  `Char.isAlphanum`, which agree with Python on the ASCII inputs used
  in all concrete evaluations in this file.
-/

/-- The set `string.punctuation` of Python's standard library: the 32
ASCII punctuation characters (codes 33–47, 58–64, 91–96, 123–126). -/
def pyPunct : List Char :=
  ((List.range 128).map Char.ofNat).filter
    (fun c => (33 ≤ c.toNat && c.toNat ≤ 47) || (58 ≤ c.toNat && c.toNat ≤ 64) ||
      (91 ≤ c.toNat && c.toNat ≤ 96) || (123 ≤ c.toNat && c.toNat ≤ 126))

/-- Whitespace as recognized by Python's `str.split()` (ASCII part):
space, tab, newline, carriage return, vertical tab, form feed. -/
def pyIsSpace (c : Char) : Bool :=
  c == ' ' || c == '\t' || c == '\n' || c == '\r' || c.toNat == 11 || c.toNat == 12

/-- A "word character" of the regex `\w`: letter, digit or underscore. -/
def isWordChar (c : Char) : Bool :=
  c.isAlphanum || c == '_'

/-- Model of Python's `str.lower()` (character-wise lowercasing). -/
def pyLower (s : String) : String :=
  String.mk (s.toList.map Char.toLower)

/-- Maximal runs of characters satisfying `keep`; `acc` holds the
current run, in reverse.  This is the common shape of both Python's
`re.findall(r'\b\w+\b', text)` (runs of `\w`) and `str.split()`
(runs of non-whitespace). -/
def runsAux (keep : Char → Bool) (acc : List Char) : List Char → List (List Char)
  | [] => if acc.isEmpty then [] else [acc.reverse]
  | c :: cs =>
    if keep c then runsAux keep (c :: acc) cs
    else if acc.isEmpty then runsAux keep [] cs
    else acc.reverse :: runsAux keep [] cs

/-- The maximal runs of characters of `s` satisfying `keep`, as strings. -/
def runsOf (keep : Char → Bool) (s : String) : List String :=
  (runsAux keep [] s.toList).map String.mk

/-- Model of `process_text` (extract_sight_words.py, lines 29–35):
lowercase, then `re.findall(r'\b\w+\b', text)`, i.e. the maximal runs
of word characters. -/
def process_text (text : String) : List String :=
  runsOf isWordChar (pyLower text)

/-- Characters of `s` that are not in Python's `string.punctuation`
(the generator filter inside `clean_text`). -/
def stripPunct (s : String) : String :=
  String.mk (s.toList.filter (fun c => !(pyPunct.contains c)))

/-- Model of Python's no-argument `str.split()`: maximal runs of
non-whitespace characters (empty pieces discarded). -/
def pySplit (s : String) : List String :=
  runsOf (fun c => !(pyIsSpace c)) s

/-- Model of `RussianTextAnalyzer.clean_text` (russian_analyzer.py,
lines 41–44): drop punctuation characters, collapse whitespace by
splitting and re-joining on a single space, lowercase. -/
def clean_text (text : String) : String :=
  pyLower (String.intercalate " " (pySplit (stripPunct text)))

/-- Model of `RussianTextAnalyzer.get_words` (russian_analyzer.py,
lines 46–49): split the cleaned text on whitespace and keep only words
containing at least one alphabetic character. -/
def get_words (text : String) : List String :=
  (pySplit (clean_text text)).filter (fun w => w.toList.any Char.isAlpha)

/-- One step of `collections.Counter`: increment the count of `w`,
appending a fresh key at the end (Python dicts preserve first-insertion
order). -/
def countInsert (m : List (String × Nat)) (w : String) : List (String × Nat) :=
  match m with
  | [] => [(w, 1)]
  | (k, c) :: rest => if k = w then (k, c + 1) :: rest else (k, c) :: countInsert rest w

/-- Model of `collections.Counter(words)`: an association list from key
to occurrence count, keys in first-seen order. -/
def counter (ws : List String) : List (String × Nat) :=
  ws.foldl countInsert []

/-- Sum of the counts of a frequency table
(`sum(word_counts.values())`, `sum(count for _, count in ...)`). -/
def listTotal (l : List (String × Nat)) : Nat :=
  (l.map Prod.snd).sum

/-- Stable insertion step for the descending-by-count sort: `x` is
placed before the first entry whose count is `≤ x`'s count, hence after
all strictly greater counts and before already-present equal counts
that were inserted from further right in the original list. -/
def insertDesc (x : String × Nat) : List (String × Nat) → List (String × Nat)
  | [] => [x]
  | y :: ys => if x.2 < y.2 then y :: insertDesc x ys else x :: y :: ys

/-- Model of Python's stable `sorted(items, key=lambda x: x[1],
reverse=True)`.  A stable sort's output is uniquely determined, so the
stable insertion sort below is extensionally the same function as
CPython's timsort under this key. -/
def sortDesc (l : List (String × Nat)) : List (String × Nat) :=
  l.foldr insertDesc []

/-- Model of `Counter.most_common()` (no argument): CPython implements
it as `sorted(self.items(), key=itemgetter(1), reverse=True)`, a stable
descending sort on the count. -/
def most_common (m : List (String × Nat)) : List (String × Nat) :=
  sortDesc m

/-- The token stream that survives normalization inside
`RussianTextAnalyzer.get_word_frequency` (russian_analyzer.py, lines
63–70): optionally drop stopwords (checked on the lowercased surface
form), then optionally replace each word by its lemma.  The
morphological provider (`pymorphy2`, wrapped by `get_lemma`) is
external and enters as the function parameter `lemma_of`; the
configured stopword set (`self.stopwords`, `{'ее'}` in the repository)
enters as `stopwords`. -/
def surviving_words (lemma_of : String → String) (stopwords : List String)
    (text : String) (exclude_stopwords : Bool) (use_lemmas : Bool) : List String :=
  let words := get_words text
  let words := if exclude_stopwords then words.filter (fun w => !(stopwords.contains w)) else words
  if use_lemmas then words.map lemma_of else words

/-- Model of `RussianTextAnalyzer.get_word_frequency` (russian_analyzer.py,
lines 63–70): `Counter(words).most_common()` over the surviving stream. -/
def get_word_frequency (lemma_of : String → String) (stopwords : List String)
    (text : String) (exclude_stopwords : Bool) (use_lemmas : Bool) : List (String × Nat) :=
  most_common (counter (surviving_words lemma_of stopwords text exclude_stopwords use_lemmas))

/-- The accumulation loop of `get_cumulative_frequencies`
(extract_sight_words.py, lines 42–49): running sum of counts, each
entry mapped to `(cumulative_sum / total_words) * 100`.  `acc` is the
running `cumulative_sum` (an integer in the source, carried here as the
rational it is cast to). -/
def cumList (total_words : ℚ) (acc : ℚ) : List (String × Nat) → List (String × ℚ)
  | [] => []
  | (word, count) :: rest =>
    (word, (acc + (count : ℚ)) / total_words * 100) :: cumList total_words (acc + (count : ℚ)) rest

/-- Model of `get_cumulative_frequencies` (extract_sight_words.py,
lines 37–49).  The Python loop divides by `total_words` once per entry
of the sorted list, so it raises `ZeroDivisionError` (modelled as
`none`) exactly when `total_words == 0` and the list is non-empty; the
returned dict is insertion-ordered, modelled as a list. -/
def get_cumulative_frequencies (word_counts : List (String × Nat)) (total_words : Nat) :
    Option (List (String × ℚ)) :=
  if total_words = 0 ∧ sortDesc word_counts ≠ [] then none
  else some (cumList (total_words : ℚ) 0 (sortDesc word_counts))

/-- Model of `word_counts[word]` on a `Counter`: the stored count, `0`
for a missing key. -/
def lookupCount : List (String × Nat) → String → Nat
  | [], _ => 0
  | (k, c) :: rest, w => if k = w then c else lookupCount rest w

/-- The result loop of `get_words_up_to_percentage`
(extract_sight_words.py, lines 56–62): append `(word, word_counts[word],
cum_percent)` for each entry of the cumulative dict, and break right
after the first entry with `cum_percent >= target_percentage`. -/
def takeUpTo (word_counts : List (String × Nat)) (target_percentage : ℚ) :
    List (String × ℚ) → List (String × Nat × ℚ)
  | [] => []
  | (word, cum_percent) :: rest =>
    (word, lookupCount word_counts word, cum_percent) ::
      (if target_percentage ≤ cum_percent then []
       else takeUpTo word_counts target_percentage rest)

/-- Model of `get_words_up_to_percentage` (extract_sight_words.py,
lines 51–62): compute the total, the cumulative dict, then walk it with
the break-at-target loop.  `none` is a `ZeroDivisionError` raised by
`get_cumulative_frequencies`. -/
def get_words_up_to_percentage (word_counts : List (String × Nat)) (target_percentage : ℚ) :
    Option (List (String × Nat × ℚ)) :=
  (get_cumulative_frequencies word_counts (listTotal word_counts)).map
    (takeUpTo word_counts target_percentage)

/-- Python list slicing `l[:n]` for an `int` bound: for `n ≥ 0` the
first `n` elements, for `n < 0` all but the last `-n` elements (clamped
at the empty list). -/
def pySliceTo {α : Type} (l : List α) (n : Int) : List α :=
  if 0 ≤ n then l.take n.toNat else l.take ((l.length : Int) + n).toNat

/-- The dict returned by `RussianTextAnalyzer.calculate_coverage`
(russian_analyzer.py, lines 81–90), with its five fixed fields. -/
structure CoverageResult where
  target_words : Int
  coverage_achieved : ℚ
  total_unique_words : Nat
  total_word_occurrences : Nat
  cumulative_frequencies : List (Nat × ℚ)
deriving DecidableEq

/-- Model of `RussianTextAnalyzer.calculate_coverage`
(russian_analyzer.py, lines 72–90).  `cumulative_count / total_words`
raises `ZeroDivisionError` exactly when `total_words == 0`, modelled as
`none`.  `target_words` is a Python `int`, so the slice
`word_frequencies[:target_words]` and `min(target_words, len(...))`
follow Python's signed-integer semantics. -/
def calculate_coverage (word_frequencies : List (String × Nat)) (target_words : Int) :
    Option CoverageResult :=
  if listTotal word_frequencies = 0 then none
  else some {
    target_words := target_words
    coverage_achieved :=
      (listTotal (pySliceTo word_frequencies target_words) : ℚ) / (listTotal word_frequencies : ℚ)
    total_unique_words := word_frequencies.length
    total_word_occurrences := listTotal word_frequencies
    cumulative_frequencies :=
      (List.range (min target_words (word_frequencies.length : Int)).toNat).map
        (fun i => (i + 1,
          (listTotal (word_frequencies.take (i + 1)) : ℚ) / (listTotal word_frequencies : ℚ)))
  }

/-- Index of the first occurrence of `x` in a list (length of the list
if absent); used to state the first-seen tie-break rule. -/
def firstIdx : List String → String → Nat
  | [], _ => 0
  | w :: ws, x => if w = x then 0 else firstIdx ws x + 1

/-- A concrete morphological provider used as a test fixture: it maps
the surface form `b` to the base form `a` and fixes everything else. -/
def lemma_fixture (w : String) : String :=
  if w = "b" then "a" else w

/-! ### Invariants of the frequency counter -/

theorem listTotal_countInsert (m : List (String × Nat)) (w : String) :
    listTotal (countInsert m w) = listTotal m + 1 := by
  induction m with
  | nil => simp [countInsert, listTotal]
  | cons e rest ih =>
    obtain ⟨k, c⟩ := e
    by_cases h : k = w <;> simp [countInsert, h, listTotal] at ih ⊢ <;> omega

theorem listTotal_counter (ws : List String) : listTotal (counter ws) = ws.length := by
  suffices h : ∀ m, listTotal (ws.foldl countInsert m) = listTotal m + ws.length by
    simpa [listTotal] using h []
  induction ws with
  | nil => simp
  | cons w ws ih =>
    intro m
    simp only [List.foldl_cons, ih, listTotal_countInsert, List.length_cons]
    omega

theorem counts_pos_countInsert {m : List (String × Nat)} (h : ∀ e ∈ m, 1 ≤ e.2) (w : String) :
    ∀ e ∈ countInsert m w, 1 ≤ e.2 := by
  induction m with
  | nil =>
    intro e he
    simp [countInsert] at he
    simp [he]
  | cons f rest ih =>
    obtain ⟨k, c⟩ := f
    intro e he
    by_cases hk : k = w
    · simp only [countInsert, if_pos hk, List.mem_cons] at he
      rcases he with rfl | he'
      · simp
      · exact h e (List.mem_cons_of_mem _ he')
    · simp only [countInsert, if_neg hk, List.mem_cons] at he
      rcases he with rfl | he'
      · exact h (k, c) (List.mem_cons_self _ _)
      · exact ih (fun f hf => h f (List.mem_cons_of_mem _ hf)) e he'

theorem counts_pos_counter (ws : List String) : ∀ e ∈ counter ws, 1 ≤ e.2 := by
  suffices h : ∀ m, (∀ e ∈ m, 1 ≤ e.2) → ∀ e ∈ ws.foldl countInsert m, 1 ≤ e.2 by
    exact h [] (by simp)
  induction ws with
  | nil => intro m hm; simpa using hm
  | cons w ws ih => intro m hm; exact ih _ (counts_pos_countInsert hm w)

theorem keys_countInsert_mem {m : List (String × Nat)} {w : String}
    (h : w ∈ m.map Prod.fst) : (countInsert m w).map Prod.fst = m.map Prod.fst := by
  induction m with
  | nil => simp at h
  | cons f rest ih =>
    obtain ⟨k, c⟩ := f
    by_cases hk : k = w
    · simp [countInsert, hk]
    · simp only [countInsert, if_neg hk, List.map_cons]
      simp only [List.map_cons, List.mem_cons] at h
      rcases h with h' | h'
      · exact absurd h'.symm hk
      · rw [ih h']

theorem keys_countInsert_not_mem {m : List (String × Nat)} {w : String}
    (h : w ∉ m.map Prod.fst) : (countInsert m w).map Prod.fst = m.map Prod.fst ++ [w] := by
  induction m with
  | nil => simp [countInsert]
  | cons f rest ih =>
    obtain ⟨k, c⟩ := f
    simp only [List.map_cons, List.mem_cons] at h
    push_neg at h
    obtain ⟨hk, hrest⟩ := h
    simp only [countInsert, if_neg (Ne.symm hk), List.map_cons, List.cons_append]
    rw [ih hrest]

theorem mem_keys_foldl (ws : List String) :
    ∀ (m : List (String × Nat)) (x : String),
      (x ∈ (ws.foldl countInsert m).map Prod.fst ↔ x ∈ m.map Prod.fst ∨ x ∈ ws) := by
  induction ws with
  | nil => intro m x; simp
  | cons w ws ih =>
    intro m x
    rw [List.foldl_cons, ih]
    by_cases hw : w ∈ m.map Prod.fst
    · rw [keys_countInsert_mem hw]
      simp only [List.mem_cons]
      constructor
      · rintro (h | h)
        · exact Or.inl h
        · exact Or.inr (Or.inr h)
      · rintro (h | h | h)
        · exact Or.inl h
        · exact Or.inl (by rw [h]; exact hw)
        · exact Or.inr h
    · rw [keys_countInsert_not_mem hw]
      simp only [List.mem_append, List.mem_cons, List.mem_singleton]
      tauto

theorem mem_keys_counter (ws : List String) (x : String) :
    x ∈ (counter ws).map Prod.fst ↔ x ∈ ws := by
  rw [counter, mem_keys_foldl]
  simp

theorem nodup_keys_countInsert {m : List (String × Nat)} (h : (m.map Prod.fst).Nodup)
    (w : String) : ((countInsert m w).map Prod.fst).Nodup := by
  by_cases hw : w ∈ m.map Prod.fst
  · rwa [keys_countInsert_mem hw]
  · rw [keys_countInsert_not_mem hw]
    simp [List.nodup_append, h, hw]

theorem nodup_keys_counter (ws : List String) : ((counter ws).map Prod.fst).Nodup := by
  suffices h : ∀ m, (m.map Prod.fst).Nodup → ((ws.foldl countInsert m).map Prod.fst).Nodup by
    exact h [] (by simp)
  induction ws with
  | nil => intro m hm; simpa using hm
  | cons w ws ih => intro m hm; exact ih _ (nodup_keys_countInsert hm w)

theorem counter_append_singleton (ws : List String) (w : String) :
    counter (ws ++ [w]) = countInsert (counter ws) w := by
  simp [counter, List.foldl_append]

/-! ### First-seen order -/

theorem firstIdx_lt_length {l : List String} {x : String} (h : x ∈ l) :
    firstIdx l x < l.length := by
  induction l with
  | nil => simp at h
  | cons w ws ih =>
    by_cases hw : w = x
    · simp [firstIdx, hw]
    · have hx : x ∈ ws := (List.mem_cons.mp h).resolve_left (fun hx => hw hx.symm)
      simp only [firstIdx, if_neg hw, List.length_cons]
      exact Nat.succ_lt_succ (ih hx)

theorem firstIdx_append_left {l₁ : List String} (l₂ : List String) {x : String} (h : x ∈ l₁) :
    firstIdx (l₁ ++ l₂) x = firstIdx l₁ x := by
  induction l₁ with
  | nil => simp at h
  | cons w ws ih =>
    by_cases hw : w = x
    · simp [firstIdx, hw]
    · have hx : x ∈ ws := (List.mem_cons.mp h).resolve_left (fun hx => hw hx.symm)
      simp only [List.cons_append, firstIdx, if_neg hw, List.append_eq, ih hx]

theorem firstIdx_append_of_not_mem {l₁ : List String} (l₂ : List String) {x : String}
    (h : x ∉ l₁) : firstIdx (l₁ ++ l₂) x = l₁.length + firstIdx l₂ x := by
  induction l₁ with
  | nil => simp
  | cons w ws ih =>
    have hw : ¬ w = x := fun hw => h (by rw [hw]; exact List.mem_cons_self _ _)
    have hx : x ∉ ws := fun hx => h (List.mem_cons_of_mem _ hx)
    simp only [List.cons_append, firstIdx, if_neg hw, List.append_eq, ih hx, List.length_cons]
    omega

theorem counter_keys_pairwise (ws : List String) :
    ((counter ws).map Prod.fst).Pairwise (fun x y => firstIdx ws x < firstIdx ws y) := by
  induction ws using List.reverseRecOn with
  | nil => simp [counter]
  | append_singleton ws w ih =>
    rw [counter_append_singleton]
    by_cases hw : w ∈ (counter ws).map Prod.fst
    · rw [keys_countInsert_mem hw]
      refine ih.imp_of_mem ?_
      intro a b ha hb hab
      rwa [firstIdx_append_left _ ((mem_keys_counter ws a).mp ha),
        firstIdx_append_left _ ((mem_keys_counter ws b).mp hb)]
    · rw [keys_countInsert_not_mem hw]
      have hw' : w ∉ ws := fun h => hw ((mem_keys_counter ws w).mpr h)
      rw [List.pairwise_append]
      refine ⟨ih.imp_of_mem ?_, by simp, ?_⟩
      · intro a b ha hb hab
        rwa [firstIdx_append_left _ ((mem_keys_counter ws a).mp ha),
          firstIdx_append_left _ ((mem_keys_counter ws b).mp hb)]
      · intro a ha b hb
        simp only [List.mem_singleton] at hb
        subst hb
        have ha' : a ∈ ws := (mem_keys_counter ws a).mp ha
        rw [firstIdx_append_left _ ha', firstIdx_append_of_not_mem _ hw']
        have hlt := firstIdx_lt_length ha'
        simp only [firstIdx, if_pos rfl]
        omega

/-! ### Properties of the stable descending sort -/

theorem insertDesc_perm (x : String × Nat) (l : List (String × Nat)) :
    List.Perm (insertDesc x l) (x :: l) := by
  induction l with
  | nil => exact List.Perm.refl _
  | cons y ys ih =>
    by_cases h : x.2 < y.2
    · simp only [insertDesc, if_pos h]
      exact (ih.cons y).trans (List.Perm.swap x y ys)
    · simp only [insertDesc, if_neg h]
      exact List.Perm.refl _

theorem sortDesc_perm (l : List (String × Nat)) : List.Perm (sortDesc l) l := by
  induction l with
  | nil => exact List.Perm.refl _
  | cons x xs ih => exact (insertDesc_perm x (sortDesc xs)).trans (ih.cons x)

theorem insertDesc_mem {z x : String × Nat} {l : List (String × Nat)} :
    z ∈ insertDesc x l ↔ z = x ∨ z ∈ l := by
  rw [(insertDesc_perm x l).mem_iff, List.mem_cons]

theorem insertDesc_sorted {l : List (String × Nat)}
    (h : l.Sorted (fun a b : String × Nat => b.2 ≤ a.2)) (x : String × Nat) :
    (insertDesc x l).Sorted (fun a b : String × Nat => b.2 ≤ a.2) := by
  induction l with
  | nil => simp [insertDesc]
  | cons y ys ih =>
    rw [List.sorted_cons] at h
    obtain ⟨hy, hys⟩ := h
    by_cases hlt : x.2 < y.2
    · simp only [insertDesc, if_pos hlt]
      rw [List.sorted_cons]
      refine ⟨?_, ih hys⟩
      intro b hb
      rcases insertDesc_mem.mp hb with rfl | hb'
      · exact Nat.le_of_lt hlt
      · exact hy b hb'
    · simp only [insertDesc, if_neg hlt]
      rw [List.sorted_cons]
      refine ⟨?_, List.sorted_cons.mpr ⟨hy, hys⟩⟩
      intro b hb
      rcases List.mem_cons.mp hb with rfl | hb'
      · omega
      · exact le_trans (hy b hb') (by omega)

theorem sortDesc_sorted (l : List (String × Nat)) :
    (sortDesc l).Sorted (fun a b : String × Nat => b.2 ≤ a.2) := by
  induction l with
  | nil => simp [sortDesc]
  | cons x xs ih => exact insertDesc_sorted ih x

theorem insertDesc_filter (x : String × Nat) (l : List (String × Nat)) (c : Nat) :
    (insertDesc x l).filter (fun e => e.2 == c) =
      if x.2 = c then x :: l.filter (fun e => e.2 == c)
      else l.filter (fun e => e.2 == c) := by
  induction l with
  | nil => by_cases h : x.2 = c <;> simp [insertDesc, h]
  | cons y ys ih =>
    by_cases hlt : x.2 < y.2
    · by_cases hy : y.2 = c
      · have hx : ¬ x.2 = c := by omega
        simp only [insertDesc, if_pos hlt, List.filter_cons, ih, if_neg hx]
      · simp only [insertDesc, if_pos hlt, List.filter_cons, ih]
        by_cases hx : x.2 = c <;> simp [hx, hy]
    · simp only [insertDesc, if_neg hlt, List.filter_cons]
      by_cases hx : x.2 = c <;> simp [hx]

theorem sortDesc_filter (l : List (String × Nat)) (c : Nat) :
    (sortDesc l).filter (fun e => e.2 == c) = l.filter (fun e => e.2 == c) := by
  induction l with
  | nil => rfl
  | cons x xs ih =>
    show ((insertDesc x (sortDesc xs)).filter _) = _
    rw [insertDesc_filter, List.filter_cons]
    by_cases hx : x.2 = c <;> simp [hx, ih]

/-- Stability of the ranking, phrased on adjacent-or-not pairs: if `a`
appears somewhere before `b` in the sorted output and both carry the
same count, then `a`'s key was inserted into the table before `b`'s,
i.e. first seen earlier in the token stream. -/
theorem sortDesc_counter_stable {ws : List String} {a b : String × Nat}
    (hsub : [a, b].Sublist (sortDesc (counter ws))) (heq : a.2 = b.2) :
    firstIdx ws a.1 < firstIdx ws b.1 := by
  have hfab : [a, b].filter (fun e => e.2 == a.2) = [a, b] := by
    simp [List.filter_cons, heq]
  have h1 : [a, b].Sublist ((sortDesc (counter ws)).filter (fun e => e.2 == a.2)) := by
    rw [← hfab]
    exact hsub.filter _
  rw [sortDesc_filter] at h1
  have h2 : [a, b].Sublist (counter ws) := h1.trans (List.filter_sublist _)
  have h3 : [a.1, b.1].Sublist ((counter ws).map Prod.fst) := by
    have := h2.map Prod.fst
    simpa using this
  have h4 := (counter_keys_pairwise ws).sublist h3
  rw [List.pairwise_cons] at h4
  exact h4.1 b.1 (by simp)

/-! ### Properties of the cumulative-percentage walk -/

theorem cumList_length (t acc : ℚ) (l : List (String × Nat)) :
    (cumList t acc l).length = l.length := by
  induction l generalizing acc with
  | nil => rfl
  | cons e rest ih =>
    obtain ⟨w, c⟩ := e
    simp [cumList, ih]

theorem cumList_keys (t acc : ℚ) (l : List (String × Nat)) :
    (cumList t acc l).map Prod.fst = l.map Prod.fst := by
  induction l generalizing acc with
  | nil => rfl
  | cons e rest ih =>
    obtain ⟨w, c⟩ := e
    simp [cumList, ih]

theorem cumList_getLast (t : ℚ) :
    ∀ (l : List (String × Nat)) (acc : ℚ), l ≠ [] →
      ((cumList t acc l).getLast?).map Prod.snd =
        some ((acc + (listTotal l : ℚ)) / t * 100)
  | [], _, h => absurd rfl h
  | [(w, c)], acc, _ => by
    simp [cumList, listTotal]
  | (w, c) :: (fw, fc) :: rest, acc, _ => by
    have ih := cumList_getLast t ((fw, fc) :: rest) (acc + (c : ℚ)) (by simp)
    simp only [cumList, List.getLast?_cons_cons] at ih ⊢
    rw [ih]
    congr 1
    simp only [listTotal, List.map_cons, List.sum_cons]
    push_cast
    ring

theorem cumList_le (t : ℚ) (ht : 0 < t) :
    ∀ (l : List (String × Nat)) (acc : ℚ),
      ∀ e ∈ cumList t acc l, e.2 ≤ (acc + (listTotal l : ℚ)) / t * 100
  | [], _, e, he => by simp [cumList] at he
  | (w, c) :: rest, acc, e, he => by
    simp only [cumList, List.mem_cons] at he
    rcases he with rfl | he'
    · have h0 : c ≤ listTotal ((w, c) :: rest) := by
        simp only [listTotal, List.map_cons, List.sum_cons]
        omega
      have hnum : acc + (c : ℚ) ≤ acc + (listTotal ((w, c) :: rest) : ℚ) := by
        have h0' : (c : ℚ) ≤ (listTotal ((w, c) :: rest) : ℚ) := by exact_mod_cast h0
        linarith
      exact mul_le_mul_of_nonneg_right ((div_le_div_iff_of_pos_right ht).mpr hnum) (by norm_num)
    · have ih := cumList_le t ht rest (acc + (c : ℚ)) e he'
      refine le_trans ih (le_of_eq ?_)
      congr 1
      simp only [listTotal, List.map_cons, List.sum_cons]
      push_cast
      ring

theorem cumList_get (t : ℚ) :
    ∀ (l : List (String × Nat)) (acc : ℚ) (i : Nat) (h : i < (cumList t acc l).length),
      ((cumList t acc l).get ⟨i, h⟩).2 = (acc + (listTotal (l.take (i + 1)) : ℚ)) / t * 100
  | [], _, i, h => by simp [cumList] at h
  | (w, c) :: rest, acc, 0, h => by
    simp [cumList, listTotal]
  | (w, c) :: rest, acc, i + 1, h => by
    have h' : i < (cumList t (acc + (c : ℚ)) rest).length := by
      simpa [cumList] using h
    have ih := cumList_get t rest (acc + (c : ℚ)) i h'
    simp only [cumList, List.get_cons_succ] at ih ⊢
    rw [ih]
    congr 1
    simp only [List.take_succ_cons, listTotal, List.map_cons, List.sum_cons]
    push_cast
    ring

/-! ### Properties of the break-at-target loop -/

theorem takeUpTo_all (wc : List (String × Nat)) (target : ℚ) :
    ∀ cf : List (String × ℚ), (∀ e ∈ cf, e.2 < target) →
      takeUpTo wc target cf = cf.map (fun e => (e.1, lookupCount wc e.1, e.2))
  | [], _ => rfl
  | (w, p) :: rest, h => by
    have hp : p < target := by simpa using h (w, p) (List.mem_cons_self _ _)
    have ih := takeUpTo_all wc target rest (fun e he => h e (List.mem_cons_of_mem _ he))
    simp only [takeUpTo, if_neg (not_le.mpr hp), ih, List.map_cons]

theorem takeUpTo_spec (wc : List (String × Nat)) (target : ℚ) :
    ∀ cf : List (String × ℚ), (∃ e ∈ cf, target ≤ e.2) →
      takeUpTo wc target cf ≠ []
      ∧ (∀ e, (takeUpTo wc target cf).getLast? = some e → target ≤ e.2.2)
      ∧ (∀ p ∈ (takeUpTo wc target cf).dropLast, p.2.2 < target)
      ∧ (takeUpTo wc target cf).map (fun p => (p.1, p.2.2)) =
          cf.take (takeUpTo wc target cf).length
  | [], h => by simp at h
  | (w, p) :: rest, h => by
    by_cases hp : target ≤ p
    · refine ⟨by simp [takeUpTo, if_pos hp], ?_, ?_, ?_⟩
      · intro e he
        simp only [takeUpTo, if_pos hp, List.getLast?_singleton, Option.some.injEq] at he
        rw [← he]
        exact hp
      · intro q hq
        simp [takeUpTo, if_pos hp] at hq
      · simp [takeUpTo, if_pos hp]
    · have hrest : ∃ e ∈ rest, target ≤ e.2 := by
        rcases h with ⟨e, he, hte⟩
        rcases List.mem_cons.mp he with rfl | he'
        · exact absurd hte hp
        · exact ⟨e, he', hte⟩
      obtain ⟨h1, h2, h3, h4⟩ := takeUpTo_spec wc target rest hrest
      obtain ⟨t0, ts, hts⟩ := List.exists_cons_of_ne_nil h1
      refine ⟨by simp [takeUpTo, if_neg hp], ?_, ?_, ?_⟩
      · intro e he
        apply h2
        rw [← he]
        simp only [takeUpTo, if_neg hp]
        rw [hts, List.getLast?_cons_cons]
      · intro q hq
        simp only [takeUpTo, if_neg hp] at hq
        rw [hts] at hq
        rw [List.dropLast_cons₂] at hq
        rcases List.mem_cons.mp hq with rfl | hq'
        · exact not_le.mp hp
        · exact h3 q (by rw [hts]; exact hq')
      · simp only [takeUpTo, if_neg hp, List.map_cons, List.length_cons, List.take_succ_cons]
        rw [h4]

/-! ### Transfer along the ranking permutation, and small utilities -/

theorem listTotal_perm {l l' : List (String × Nat)} (h : List.Perm l l') :
    listTotal l = listTotal l' :=
  List.Perm.sum_eq (h.map Prod.snd)

theorem listTotal_sortDesc (l : List (String × Nat)) :
    listTotal (sortDesc l) = listTotal l :=
  listTotal_perm (sortDesc_perm l)

theorem listTotal_pos {l : List (String × Nat)} (hne : l ≠ []) (h : ∀ e ∈ l, 1 ≤ e.2) :
    0 < listTotal l := by
  obtain ⟨e, rest, rfl⟩ := List.exists_cons_of_ne_nil hne
  have h1 := h e (List.mem_cons_self _ _)
  simp only [listTotal, List.map_cons, List.sum_cons]
  omega

theorem sortDesc_ne_nil {l : List (String × Nat)} (h : l ≠ []) : sortDesc l ≠ [] := by
  intro hs
  apply h
  have hlen := (sortDesc_perm l).length_eq
  rw [hs] at hlen
  exact List.length_eq_zero.mp hlen.symm

theorem gwup_eq_some {wc : List (String × Nat)} (h : listTotal wc ≠ 0) (target : ℚ) :
    get_words_up_to_percentage wc target =
      some (takeUpTo wc target (cumList (listTotal wc : ℚ) 0 (sortDesc wc))) := by
  rw [get_words_up_to_percentage, get_cumulative_frequencies, if_neg]
  · rfl
  · rintro ⟨h0, _⟩
    exact h h0

theorem calculate_coverage_eq_some {wf : List (String × Nat)} (h : listTotal wf ≠ 0) (t : Int) :
    calculate_coverage wf t = some {
      target_words := t
      coverage_achieved := (listTotal (pySliceTo wf t) : ℚ) / (listTotal wf : ℚ)
      total_unique_words := wf.length
      total_word_occurrences := listTotal wf
      cumulative_frequencies :=
        (List.range (min t (wf.length : Int)).toNat).map
          (fun i => (i + 1, (listTotal (wf.take (i + 1)) : ℚ) / (listTotal wf : ℚ)))
    } := by
  rw [calculate_coverage, if_neg h]

theorem length_filter_partition {α : Type} (l : List α) (p : α → Bool) :
    (l.filter (fun a => !(p a))).length + (l.filter p).length = l.length := by
  induction l with
  | nil => rfl
  | cons a l ih =>
    cases hpa : p a <;> simp [List.filter_cons, hpa] <;> omega

theorem runsAux_sound (keep : Char → Bool) :
    ∀ (cs acc : List Char), (∀ c ∈ acc, keep c = true) →
      ∀ r ∈ runsAux keep acc cs, r ≠ [] ∧ ∀ c ∈ r, keep c = true
  | [], acc, hacc, r, hr => by
    by_cases ha : acc.isEmpty
    · simp [runsAux, ha] at hr
    · simp only [runsAux, if_neg ha, List.mem_singleton] at hr
      subst hr
      refine ⟨?_, ?_⟩
      · intro hrev
        apply ha
        rw [List.isEmpty_iff]
        simpa using congrArg List.reverse hrev
      · intro c hc
        exact hacc c (List.mem_reverse.mp hc)
  | c :: cs, acc, hacc, r, hr => by
    by_cases hk : keep c
    · simp only [runsAux, if_pos hk] at hr
      refine runsAux_sound keep cs (c :: acc) ?_ r hr
      intro d hd
      rcases List.mem_cons.mp hd with rfl | hd'
      · exact hk
      · exact hacc d hd'
    · simp only [runsAux, if_neg hk] at hr
      by_cases ha : acc.isEmpty
      · rw [if_pos ha] at hr
        exact runsAux_sound keep cs [] (by simp) r hr
      · rw [if_neg ha] at hr
        rcases List.mem_cons.mp hr with rfl | hr'
        · refine ⟨?_, ?_⟩
          · intro hrev
            apply ha
            rw [List.isEmpty_iff]
            simpa using congrArg List.reverse hrev
          · intro d hd
            exact hacc d (List.mem_reverse.mp hd)
        · exact runsAux_sound keep cs [] (by simp) r hr'

theorem stringMk_ne_empty {r : List Char} (h : r ≠ []) : String.mk r ≠ "" := by
  intro he
  apply h
  have hd : (String.mk r).data = ("" : String).data := by rw [he]
  simpa using hd

/-! ### Claim theorems -/

/-- Claim C1, code evaluated at the failing input: with a zero total
occurrence count (empty table / empty ranked sequence), Mode A
(`get_words_up_to_percentage`) does return the empty report, but Mode B
(`calculate_coverage`) evaluates `cumulative_count / total_words` with
`total_words = 0` and raises `ZeroDivisionError` (modelled as `none`)
instead of returning an empty, well-defined report.  The claim's
"no arithmetic error" therefore fails on the code for Mode B. -/
theorem c1_zero_total_division_by_zero :
    get_words_up_to_percentage [] 50 = some []
    ∧ calculate_coverage [] 100 = none :=
  ⟨rfl, rfl⟩

/-- Claim C2, counterexample: on the non-empty table `{a: 1}` with
target percentage `0`, Mode A returns one entry (the top-ranked word),
not zero entries; and on `{a: 2, b: 1}` with `target_words = -1`,
Mode B reports coverage `2/3` (Python's negative slice keeps all but
the last entry), not `0%`. -/
theorem c2_counterexample :
    get_words_up_to_percentage [("a", 1)] 0 = some [("a", 1, (100 : ℚ))]
    ∧ (calculate_coverage [("a", 2), ("b", 1)] (-1)).map (fun r => r.coverage_achieved) =
        some ((2 : ℚ) / 3)
    ∧ ¬ ((2 : ℚ) / 3 = 0) := by
  refine ⟨?_, by rfl, by norm_num⟩
  norm_num [get_words_up_to_percentage, get_cumulative_frequencies, listTotal, sortDesc,
    insertDesc, cumList, takeUpTo, lookupCount]

/-- Claim C2 as amended: for a non-empty frequency table with positive
counts, a non-positive target percentage makes Mode A return exactly
one entry (the loop appends the top entry before checking the
threshold); Mode B with a non-positive `target_words` returns an empty
cumulative curve, and its `coverage_achieved` is the Python-slice
coverage `listTotal (wf[:t]) / total` — `0` when `t = 0`, but the
coverage of all-but-the-last `|t|` entries when `t < 0`. -/
theorem c2_amended (wc : List (String × Nat)) (target : ℚ) (wf : List (String × Nat)) (t : Int)
    (h0 : wc ≠ []) (h1 : ∀ e ∈ wc, 1 ≤ e.2) (h2 : (wc.map Prod.fst).Nodup) (h3 : target ≤ 0)
    (h4 : wf ≠ []) (h5 : ∀ e ∈ wf, 1 ≤ e.2) (h6 : t ≤ 0) :
    (get_words_up_to_percentage wc target).map List.length = some 1
    ∧ (calculate_coverage wf t).map (fun r => r.cumulative_frequencies) = some []
    ∧ (calculate_coverage wf t).map (fun r => r.coverage_achieved) =
        some ((listTotal (pySliceTo wf t) : ℚ) / (listTotal wf : ℚ))
    ∧ (t = 0 → (calculate_coverage wf t).map (fun r => r.coverage_achieved) = some 0) := by
  have hpos := listTotal_pos h0 h1
  have htot : listTotal wc ≠ 0 := Nat.pos_iff_ne_zero.mp hpos
  have htotB : listTotal wf ≠ 0 := Nat.pos_iff_ne_zero.mp (listTotal_pos h4 h5)
  have hB := calculate_coverage_eq_some htotB t
  have hmin : (min t (wf.length : Int)).toNat = 0 := by
    have hle : min t (wf.length : Int) ≤ 0 := le_trans (min_le_left _ _) h6
    omega
  refine ⟨?_, ?_, ?_, ?_⟩
  · obtain ⟨hd, tl, hsd⟩ := List.exists_cons_of_ne_nil (sortDesc_ne_nil h0)
    obtain ⟨w, c⟩ := hd
    have hwc : (w, c) ∈ wc := (sortDesc_perm wc).subset (by rw [hsd]; exact List.mem_cons_self _ _)
    have hc : 1 ≤ c := h1 (w, c) hwc
    have hv : (0 : ℚ) < (0 + (c : ℚ)) / (listTotal wc : ℚ) * 100 := by
      have htq : (0 : ℚ) < (listTotal wc : ℚ) := by exact_mod_cast hpos
      have hcq : (0 : ℚ) < (c : ℚ) := by exact_mod_cast hc
      rw [zero_add]
      exact mul_pos (div_pos hcq htq) (by norm_num)
    have hstep : takeUpTo wc target (cumList (listTotal wc : ℚ) 0 (sortDesc wc)) =
        [(w, lookupCount wc w, (0 + (c : ℚ)) / (listTotal wc : ℚ) * 100)] := by
      rw [hsd]
      simp only [cumList, takeUpTo]
      rw [if_pos (le_trans h3 (le_of_lt hv))]
    rw [gwup_eq_some htot target, hstep]
    rfl
  · rw [hB]
    simp [hmin]
  · rw [hB]
    rfl
  · intro ht
    subst ht
    rw [hB]
    simp [pySliceTo, listTotal]

/-- Claim C3: the ranked sequence (produced both by the sort inside
`get_cumulative_frequencies` and by `Counter.most_common` inside
`get_word_frequency`, both modelled by `sortDesc` over the
insertion-ordered `counter`) is ordered by count descending, and any
two entries with equal count appear in first-seen order of the token
stream.  The embedding is a pure function of the stream, so the order
is identical across repeated runs on identical input. -/
theorem c3_ranking_sorted_and_stable (ws : List String) :
    (sortDesc (counter ws)).Sorted (fun a b : String × Nat => b.2 ≤ a.2)
    ∧ (∀ a b : String × Nat, [a, b].Sublist (sortDesc (counter ws)) → a.2 = b.2 →
        firstIdx ws a.1 < firstIdx ws b.1) :=
  ⟨sortDesc_sorted _, fun _ _ hsub heq => sortDesc_counter_stable hsub heq⟩

/-- Witness for C3 at the concrete stream `[b, a]`: the two keys tie at
count 1 and come out in first-seen order. -/
theorem c3_witness :
    [(("b", 1) : String × Nat), ("a", 1)].Sublist (sortDesc (counter ["b", "a"]))
    ∧ firstIdx ["b", "a"] "b" < firstIdx ["b", "a"] "a" := by
  have he : sortDesc (counter ["b", "a"]) = [("b", 1), ("a", 1)] := by decide
  have hsub : [(("b", 1) : String × Nat), ("a", 1)].Sublist (sortDesc (counter ["b", "a"])) := by
    rw [he]
  exact ⟨hsub, (c3_ranking_sorted_and_stable ["b", "a"]).2 ("b", 1) ("a", 1) hsub rfl⟩

/-- Claim C4: for a non-empty frequency table and `0 < target ≤ 100`,
Mode A returns (without error) the shortest prefix of the ranked
cumulative sequence reaching the target: the result is a non-empty
prefix of the cumulative list, its last entry's cumulative percentage
is `≥ target` (that entry included), and every earlier entry — hence
every strictly shorter prefix — stays `< target`. -/
theorem c4_stops_at_first_reach (wc : List (String × Nat)) (target : ℚ)
    (h0 : wc ≠ []) (h1 : ∀ e ∈ wc, 1 ≤ e.2) (h2 : (wc.map Prod.fst).Nodup)
    (h3 : 0 < target) (h4 : target ≤ 100) :
    get_words_up_to_percentage wc target =
      some (takeUpTo wc target (cumList (listTotal wc : ℚ) 0 (sortDesc wc)))
    ∧ takeUpTo wc target (cumList (listTotal wc : ℚ) 0 (sortDesc wc)) ≠ []
    ∧ (∀ e, (takeUpTo wc target (cumList (listTotal wc : ℚ) 0 (sortDesc wc))).getLast? = some e →
        target ≤ e.2.2)
    ∧ (∀ p ∈ (takeUpTo wc target (cumList (listTotal wc : ℚ) 0 (sortDesc wc))).dropLast,
        p.2.2 < target)
    ∧ (takeUpTo wc target (cumList (listTotal wc : ℚ) 0 (sortDesc wc))).map
          (fun p => (p.1, p.2.2)) =
        (cumList (listTotal wc : ℚ) 0 (sortDesc wc)).take
          (takeUpTo wc target (cumList (listTotal wc : ℚ) 0 (sortDesc wc))).length := by
  have hpos := listTotal_pos h0 h1
  have htot : listTotal wc ≠ 0 := Nat.pos_iff_ne_zero.mp hpos
  have hlast := cumList_getLast (listTotal wc : ℚ) (sortDesc wc) 0 (sortDesc_ne_nil h0)
  have hval : (0 + (listTotal (sortDesc wc) : ℚ)) / (listTotal wc : ℚ) * 100 = 100 := by
    rw [listTotal_sortDesc, zero_add, div_self (by exact_mod_cast htot)]
    norm_num
  rw [hval] at hlast
  obtain ⟨e, he⟩ : ∃ e, (cumList (listTotal wc : ℚ) 0 (sortDesc wc)).getLast? = some e := by
    cases hgl : (cumList (listTotal wc : ℚ) 0 (sortDesc wc)).getLast? with
    | none => rw [hgl] at hlast; simp at hlast
    | some e => exact ⟨e, rfl⟩
  have hmem := List.mem_of_getLast?_eq_some he
  have he2 : e.2 = 100 := by
    rw [he] at hlast
    simpa using hlast
  have hex : ∃ f ∈ cumList (listTotal wc : ℚ) 0 (sortDesc wc), target ≤ f.2 :=
    ⟨e, hmem, by rw [he2]; exact h4⟩
  obtain ⟨hne, hlastq, hdrop, hmap⟩ := takeUpTo_spec wc target _ hex
  exact ⟨gwup_eq_some htot target, hne, hlastq, hdrop, hmap⟩

/-- Witness for C4 at the table `{a: 1}`, target 50%. -/
theorem c4_witness :
    (([("a", 1)] : List (String × Nat)) ≠ [] ∧ (0 : ℚ) < 50 ∧ (50 : ℚ) ≤ 100)
    ∧ get_words_up_to_percentage [("a", 1)] 50 =
        some (takeUpTo [("a", 1)] 50 (cumList (listTotal [("a", 1)] : ℚ) 0 (sortDesc [("a", 1)]))) := by
  refine ⟨⟨by decide, by norm_num, by norm_num⟩, ?_⟩
  exact (c4_stops_at_first_reach [("a", 1)] 50 (by decide) (by decide) (by decide) (by norm_num)
    (by norm_num)).1

/-- Claim C5: for a non-empty ranked sequence with positive counts and
`target_count > 0`, Mode B returns (without error) a cumulative curve
with exactly `min(target_count, number of distinct keys)` points, one
point per rank position (`i`-th point labelled `i + 1`), and its
`coverage_achieved` is the overall coverage of those top entries. -/
theorem c5_count_mode_entries (wf : List (String × Nat)) (t : Int)
    (h0 : wf ≠ []) (h1 : ∀ e ∈ wf, 1 ≤ e.2) (h2 : 0 < t) :
    (calculate_coverage wf t).map (fun r => r.cumulative_frequencies.length) =
      some (min t.toNat wf.length)
    ∧ (calculate_coverage wf t).map (fun r => r.cumulative_frequencies.map Prod.fst) =
        some ((List.range (min t.toNat wf.length)).map (fun i => i + 1))
    ∧ (calculate_coverage wf t).map (fun r => r.coverage_achieved) =
        some ((listTotal (wf.take t.toNat) : ℚ) / (listTotal wf : ℚ)) := by
  have htot : listTotal wf ≠ 0 := Nat.pos_iff_ne_zero.mp (listTotal_pos h0 h1)
  rw [calculate_coverage_eq_some htot]
  have hmin : (min t (wf.length : Int)).toNat = min t.toNat wf.length := by omega
  have hslice : pySliceTo wf t = wf.take t.toNat := by
    rw [pySliceTo, if_pos (le_of_lt h2)]
  refine ⟨?_, ?_, ?_⟩
  · simp [hmin]
  · simp [hmin]
  · simp [hslice]

/-- Witness for C5 at the ranked sequence `[(a, 1)]`, `target_count = 1`. -/
theorem c5_witness :
    (([("a", 1)] : List (String × Nat)) ≠ [] ∧ (0 : Int) < 1)
    ∧ (calculate_coverage [("a", 1)] 1).map (fun r => r.cumulative_frequencies.length) =
        some (min (1 : Int).toNat ([("a", 1)] : List (String × Nat)).length) := by
  refine ⟨⟨by decide, by decide⟩, ?_⟩
  exact (c5_count_mode_entries [("a", 1)] 1 (by decide) (by decide) (by decide)).1

/-- Claim C6, counterexample: with stopword set `{a}` and a
morphological provider mapping the surface form `b` to the lemma `a`,
the text `b` (its lowercased-then-lemmatized key `a` IS in the stopword
set) is NOT dropped: the code filters stopwords on the surface form
before lemmatization, so the occurrence is counted under `a` and the
total occurrence count is 1, where the claim requires it to be dropped
and the total to be 0. -/
theorem c6_counterexample :
    lemma_fixture "b" = "a"
    ∧ ("a" ∈ (["a"] : List String))
    ∧ get_word_frequency lemma_fixture ["a"] "b" true true = [("a", 1)]
    ∧ listTotal (get_word_frequency lemma_fixture ["a"] "b" true true) = 1 :=
  ⟨by decide, by decide, by decide, by decide⟩

/-- Claim C6 as amended: with stopword exclusion and lemmatization both
enabled, an occurrence is dropped exactly when its lowercased surface
form (before lemmatization) is in the stopword set; dropped occurrences
do not count toward the total occurrence count, which equals the number
of surface forms outside the stopword set. -/
theorem c6_stopwords_on_surface_form (lemma_of : String → String) (stopwords : List String)
    (text : String) :
    surviving_words lemma_of stopwords text true true =
      ((get_words text).filter (fun w => !(stopwords.contains w))).map lemma_of
    ∧ listTotal (get_word_frequency lemma_of stopwords text true true) =
        ((get_words text).filter (fun w => !(stopwords.contains w))).length
    ∧ listTotal (get_word_frequency lemma_of stopwords text true true) +
          ((get_words text).filter (fun w => stopwords.contains w)).length =
        listTotal (get_word_frequency lemma_of stopwords text false true) := by
  have hsw : surviving_words lemma_of stopwords text true true =
      ((get_words text).filter (fun w => !(stopwords.contains w))).map lemma_of := rfl
  have hlen : listTotal (get_word_frequency lemma_of stopwords text true true) =
      ((get_words text).filter (fun w => !(stopwords.contains w))).length := by
    rw [get_word_frequency, most_common, listTotal_sortDesc, listTotal_counter, hsw,
      List.length_map]
  refine ⟨hsw, hlen, ?_⟩
  have hno : listTotal (get_word_frequency lemma_of stopwords text false true) =
      (get_words text).length := by
    rw [get_word_frequency, most_common, listTotal_sortDesc, listTotal_counter]
    show ((get_words text).map lemma_of).length = (get_words text).length
    rw [List.length_map]
  rw [hlen, hno]
  exact length_filter_partition (get_words text) (fun w => stopwords.contains w)

/-- Claim C7, counterexample: `process_text` keeps the purely numeric
token `123` (the regex `\b\w+\b` matches digit runs), so tokens with no
alphabetic character do reach counting in extract_sight_words.py. -/
theorem c7_counterexample :
    process_text "123" = ["123"] ∧ "123".toList.any Char.isAlpha = false :=
  ⟨by decide, by decide⟩

/-- Claim C7 as amended: `get_words` (russian_analyzer.py) discards
tokens with no alphabetic character, so every token it passes to
counting contains at least one; `process_text`
(extract_sight_words.py) only guarantees that every token is a
non-empty run of word characters (letters, digits or underscore) —
purely non-alphabetic tokens such as digit runs survive it. -/
theorem c7_tokens_alphabetic (text : String) (w : String) :
    (w ∈ get_words text → w.toList.any Char.isAlpha = true)
    ∧ (w ∈ process_text text → w ≠ "" ∧ w.toList.all isWordChar = true) := by
  constructor
  · intro hw
    exact (List.mem_filter.mp hw).2
  · intro hw
    rw [process_text, runsOf] at hw
    obtain ⟨r, hr, rfl⟩ := List.mem_map.mp hw
    obtain ⟨hne, hall⟩ := runsAux_sound isWordChar ((pyLower text).toList) [] (by simp) r hr
    refine ⟨stringMk_ne_empty hne, ?_⟩
    rw [List.all_eq_true]
    intro c hc
    exact hall c hc

/-- Witness for C7 on concrete tokens of concrete texts. -/
theorem c7_witness :
    ("ab" ∈ get_words "ab") ∧ "ab".toList.any Char.isAlpha = true
    ∧ ("a1" ∈ process_text "a1") ∧ ("a1" ≠ "" ∧ "a1".toList.all isWordChar = true) :=
  ⟨by decide, (c7_tokens_alphabetic "ab" "ab").1 (by decide), by decide,
    (c7_tokens_alphabetic "a1" "a1").2 (by decide)⟩

/-- Claim C8: the frequency table built from any token stream has
total count equal to the stream length (the number of tokens that
survived normalization), strictly positive counts, and unique keys;
this holds both for the bare `Counter` (as built in `main` of
extract_sight_words.py) and for the table returned by
`get_word_frequency` over its surviving stream. -/
theorem c8_frequency_table_invariants (ws : List String) (lemma_of : String → String)
    (stopwords : List String) (text : String) (es ul : Bool) :
    (listTotal (counter ws) = ws.length
      ∧ (∀ e ∈ counter ws, 1 ≤ e.2)
      ∧ ((counter ws).map Prod.fst).Nodup)
    ∧ (listTotal (get_word_frequency lemma_of stopwords text es ul) =
          (surviving_words lemma_of stopwords text es ul).length
      ∧ (∀ e ∈ get_word_frequency lemma_of stopwords text es ul, 1 ≤ e.2)
      ∧ ((get_word_frequency lemma_of stopwords text es ul).map Prod.fst).Nodup) := by
  refine ⟨⟨listTotal_counter ws, counts_pos_counter ws, nodup_keys_counter ws⟩, ?_, ?_, ?_⟩
  · rw [get_word_frequency, most_common, listTotal_sortDesc, listTotal_counter]
  · intro e he
    exact counts_pos_counter _ e ((sortDesc_perm _).subset he)
  · have hperm :=
      (sortDesc_perm (counter (surviving_words lemma_of stopwords text es ul))).map Prod.fst
    exact hperm.nodup_iff.mpr (nodup_keys_counter _)

/-- Witness for C8 at the concrete stream `[b, a, a]`. -/
theorem c8_witness :
    (("a", 2) ∈ counter ["b", "a", "a"])
    ∧ 1 ≤ (("a", 2) : String × Nat).2
    ∧ listTotal (counter ["b", "a", "a"]) = (["b", "a", "a"] : List String).length := by
  have h := (c8_frequency_table_invariants ["b", "a", "a"] lemma_fixture [] "a" true true).1
  exact ⟨by decide, h.2.1 ("a", 2) (by decide), h.1⟩

/-- Claim C9, counterexample: on the ranked sequence `[(a, 1)]` with
`target_words = 1`, Mode B's cumulative curve holds the value `1`
(the raw ratio `1/1`), not `100`: `calculate_coverage` reports
fractions in the 0–1 range, not percentages scaled to 0–100 (the
`:.2%` report formatting multiplies by 100 later). -/
theorem c9_counterexample :
    (calculate_coverage [("a", 1)] 1).map (fun r => r.cumulative_frequencies.map Prod.snd) =
      some [(1 : ℚ)]
    ∧ (1 : ℚ) ≠ 100 := by
  refine ⟨?_, by norm_num⟩
  norm_num [calculate_coverage, listTotal, pySliceTo, List.range_succ]

/-- Claim C9 as amended: at every position `i`, the cumulative value is
the exact ratio of the sum of the top `i + 1` counts to the total — in
Mode A (`get_cumulative_frequencies`) multiplied by 100 (a 0–100
percentage), in Mode B (`calculate_coverage`) as the raw 0–1 fraction —
with no rounding anywhere before report formatting. -/
theorem c9_cumulative_values (wc : List (String × Nat)) (total : Nat)
    (cf : List (String × ℚ)) (i : Nat) (wf : List (String × Nat)) (t : Int)
    (r : CoverageResult) (j : Nat) :
    (get_cumulative_frequencies wc total = some cf →
      ∀ h : i < cf.length,
        (cf.get ⟨i, h⟩).2 = (listTotal ((sortDesc wc).take (i + 1)) : ℚ) / (total : ℚ) * 100)
    ∧ (calculate_coverage wf t = some r →
      ∀ h : j < r.cumulative_frequencies.length,
        (r.cumulative_frequencies.get ⟨j, h⟩).2 =
            (listTotal (wf.take (j + 1)) : ℚ) / (listTotal wf : ℚ)
          ∧ (r.cumulative_frequencies.get ⟨j, h⟩).1 = j + 1) := by
  constructor
  · intro hcf h
    rw [get_cumulative_frequencies] at hcf
    by_cases hc : total = 0 ∧ sortDesc wc ≠ []
    · rw [if_pos hc] at hcf
      exact absurd hcf (by simp)
    · rw [if_neg hc, Option.some_inj] at hcf
      subst hcf
      have hg := cumList_get (total : ℚ) (sortDesc wc) 0 i h
      rw [hg, zero_add]
  · intro hr h
    rw [calculate_coverage] at hr
    by_cases hz : listTotal wf = 0
    · rw [if_pos hz] at hr
      exact absurd hr (by simp)
    · rw [if_neg hz, Option.some_inj] at hr
      subst hr
      constructor <;>
        simp only [List.get_eq_getElem, List.getElem_map, List.getElem_range]

/-- Witness for C9 at the table `{a: 1}` in Mode A and the ranked
sequence `[(a, 1)]` in Mode B. -/
theorem c9_witness :
    get_cumulative_frequencies [("a", 1)] 1 = some [("a", (100 : ℚ))]
    ∧ (([("a", (100 : ℚ))] : List (String × ℚ)).get ⟨0, by norm_num⟩).2 =
        (listTotal ((sortDesc [("a", 1)]).take 1) : ℚ) / ((1 : Nat) : ℚ) * 100 := by
  have hcf : get_cumulative_frequencies [("a", 1)] 1 = some [("a", (100 : ℚ))] := by
    norm_num [get_cumulative_frequencies, sortDesc, insertDesc, cumList, listTotal]
  exact ⟨hcf, (c9_cumulative_values [("a", 1)] 1 [("a", 100)] 0 [("a", 1)] 1
    ⟨1, 1, 1, 1, [(1, 1)]⟩ 0).1 hcf (by norm_num)⟩

/-- Claim C10: for a non-empty frequency table with positive counts and
a target percentage strictly above 100, the cumulative percentage never
reaches the target (it tops out at exactly 100), so Mode A walks the
whole ranking and returns it in full — one entry per distinct key, in
ranked order, none omitted — and terminates without error. -/
theorem c10_target_above_100 (wc : List (String × Nat)) (target : ℚ)
    (h0 : wc ≠ []) (h1 : ∀ e ∈ wc, 1 ≤ e.2) (h2 : (wc.map Prod.fst).Nodup)
    (h3 : 100 < target) :
    get_words_up_to_percentage wc target =
      some (takeUpTo wc target (cumList (listTotal wc : ℚ) 0 (sortDesc wc)))
    ∧ (takeUpTo wc target (cumList (listTotal wc : ℚ) 0 (sortDesc wc))).map Prod.fst =
        (sortDesc wc).map Prod.fst
    ∧ (takeUpTo wc target (cumList (listTotal wc : ℚ) 0 (sortDesc wc))).length = wc.length := by
  have hpos := listTotal_pos h0 h1
  have htot : listTotal wc ≠ 0 := Nat.pos_iff_ne_zero.mp hpos
  have htq : (0 : ℚ) < (listTotal wc : ℚ) := by exact_mod_cast hpos
  have hbound : ∀ e ∈ cumList (listTotal wc : ℚ) 0 (sortDesc wc), e.2 < target := by
    intro e he
    have hb := cumList_le (listTotal wc : ℚ) htq (sortDesc wc) 0 e he
    have hv : (0 + (listTotal (sortDesc wc) : ℚ)) / (listTotal wc : ℚ) * 100 = 100 := by
      rw [listTotal_sortDesc, zero_add, div_self (ne_of_gt htq)]
      norm_num
    rw [hv] at hb
    linarith
  have hall := takeUpTo_all wc target _ hbound
  refine ⟨gwup_eq_some htot target, ?_, ?_⟩
  · rw [hall, List.map_map]
    have hcomp : (Prod.fst ∘ fun e : String × ℚ => (e.1, lookupCount wc e.1, e.2)) = Prod.fst :=
      rfl
    rw [hcomp, cumList_keys]
  · rw [hall, List.length_map, cumList_length, (sortDesc_perm wc).length_eq]

/-- Witness for C10 at the table `{a: 1}`, target 150%. -/
theorem c10_witness :
    (([("a", 1)] : List (String × Nat)) ≠ [] ∧ (100 : ℚ) < 150)
    ∧ (takeUpTo [("a", 1)] 150 (cumList (listTotal [("a", 1)] : ℚ) 0 (sortDesc [("a", 1)]))).length =
        ([("a", 1)] : List (String × Nat)).length := by
  refine ⟨⟨by decide, by norm_num⟩, ?_⟩
  exact (c10_target_above_100 [("a", 1)] 150 (by decide) (by decide) (by decide)
    (by norm_num)).2.2

/-- Witness for the amended C2 at `{a: 1}` with Mode A target `0` and
Mode B `target_words = 0`. -/
theorem c2_amended_witness :
    (([("a", 1)] : List (String × Nat)) ≠ [] ∧ (0 : ℚ) ≤ 0 ∧ (0 : Int) ≤ 0)
    ∧ (get_words_up_to_percentage [("a", 1)] 0).map List.length = some 1
    ∧ (calculate_coverage [("a", 1)] 0).map (fun r => r.cumulative_frequencies) = some [] := by
  have h := c2_amended [("a", 1)] 0 [("a", 1)] 0 (by decide) (by decide) (by decide)
    (le_refl 0) (by decide) (by decide) (le_refl 0)
  exact ⟨⟨by decide, le_refl 0, le_refl 0⟩, h.1, h.2.1⟩
